import Mathlib

/-!
# Verification of the `anyreduce` reduction engine

Shallow embedding of the core of `anyreduce` (files
`src/anyreduce/sequencepasses.py` and `src/anyreduce/reducer.py`).

Modelling conventions:

* Byte strings (`bytes`) are modelled as `List Nat`, one entry per byte.
* Python callables that close over mutable state are modelled as
  state-threaded functions `Nat → σ → Bool × σ` (resp. `List α → σ → Bool × σ`);
  a pure function `g` is recovered by threading a trace state, e.g.
  `fun n tr => (g n, tr ++ [n])` records the arguments `g` was queried at.
* The unbounded `while` loops of the source (`find_integer`'s exponential
  probe, `linear_reduce`'s sweep) take an explicit fuel argument; on fuel
  exhaustion the current accumulator is returned.  All theorems either supply
  provably sufficient fuel or evaluate at concrete inputs whose runs finish
  well within the given fuel, so the exhaustion branch is unreachable there.
* The SHA-1-derived 64-bit fingerprint `cache_key` is abstracted as an
  arbitrary function `fp : List Nat → Nat`; the specification's cache claims
  are stated "modulo fingerprint collisions", which corresponds to
  instantiating `fp` with an injective function, while claims about collision
  behaviour hold for arbitrary `fp`.
-/

namespace Anyreduce

/-- Exponential probe loop of `find_integer` (`sequencepasses.py`, lines
22-25): `while f(hi): lo = hi; hi *= 2`.  The callable `f` is state-threaded;
`fuel` bounds the number of iterations (the source loop is unbounded). -/
def probeLoop {σ : Type} (f : Nat → σ → Bool × σ) : Nat → Nat → Nat → σ → Nat × Nat × σ
  | 0, lo, hi, s => (lo, hi, s)
  | fuel + 1, lo, hi, s =>
    let r := f hi s
    if r.1 then probeLoop f fuel hi (hi * 2) r.2 else (lo, hi, r.2)

/-- Binary search loop of `find_integer` (`sequencepasses.py`, lines 29-35):
`while lo + 1 < hi: mid = (lo + hi) // 2; if f(mid): lo = mid else: hi = mid`,
returning `lo`.  Terminates unconditionally since `hi - lo` shrinks. -/
def bsearch {σ : Type} (f : Nat → σ → Bool × σ) (lo hi : Nat) (s : σ) : Nat × σ :=
  if lo + 1 < hi then
    let mid := (lo + hi) / 2
    let r := f mid s
    if r.1 then bsearch f mid hi r.2 else bsearch f lo mid r.2
  else (lo, s)
termination_by hi - lo
decreasing_by
  all_goals simp_wf
  all_goals omega

/-- `find_integer(f)` (`sequencepasses.py`, lines 1-35): linear scan over
`1..4`, then exponential probe from `lo = 4, hi = 5`, then binary search.
Returns the result together with the final state of the state-threaded `f`. -/
def find_integer {σ : Type} (fuel : Nat) (f : Nat → σ → Bool × σ) (s : σ) : Nat × σ :=
  let r1 := f 1 s
  if !r1.1 then (0, r1.2) else
  let r2 := f 2 r1.2
  if !r2.1 then (1, r2.2) else
  let r3 := f 3 r2.2
  if !r3.1 then (2, r3.2) else
  let r4 := f 4 r3.2
  if !r4.1 then (3, r4.2) else
  let pr := probeLoop f fuel 4 5 r4.2
  bsearch f pr.1 pr.2.1 pr.2.2

/-- One pure boolean function, threaded so that the state records the list of
arguments it has been queried at (in order). -/
def traced (g : Nat → Bool) : Nat → List Nat → Bool × List Nat :=
  fun n tr => (g n, tr ++ [n])

/-- `linear_reduce(sequence, predicate)` (`sequencepasses.py`, lines 38-73),
with a state-threaded predicate and explicit fuel for the outer `while` loop.
The cursor `i` and the working sequence are threaded exactly as in the source:
`find_integer` over suffix deletions at `i` (guarded by
`i + k <= len(sequence)`, with the predicate short-circuited), the fallback
2/3-offset probes, the pair-delete probe (which, on success, assigns and then
`break`s out of the sweep), and the cursor update
`i += 1` / `i = max(0, i - 1)` depending on whether the length changed. -/
def linear_reduce {α σ : Type} (pred : List α → σ → Bool × σ) :
    Nat → List α → Nat → σ → List α × σ
  | 0, seq, _, s => (seq, s)
  | fuel + 1, seq, i, s =>
    if i < seq.length then
      let prevLen := seq.length
      let pref := seq.take i
      let fi := find_integer (seq.length + 2)
        (fun k t => if i + k ≤ seq.length then pred (pref ++ seq.drop (i + k)) t
                    else (false, t)) s
      let n := fi.1
      let step1 : List α × σ :=
        if 0 < n then (pref ++ seq.drop (i + n), fi.2)
        else
          if i + 2 ≤ seq.length then
            let a2 := pref ++ seq.drop (i + 2)
            let r2 := pred a2 fi.2
            if r2.1 then (a2, r2.2)
            else if i + 3 ≤ seq.length then
              let a3 := pref ++ seq.drop (i + 3)
              let r3 := pred a3 r2.2
              if r3.1 then (a3, r3.2) else (seq, r3.2)
            else (seq, r2.2)
          else (seq, fi.2)
      let seq2 := step1.1
      if i + 2 < seq2.length then
        let a := (seq2.eraseIdx (i + 2)).eraseIdx i
        let r := pred a step1.2
        if r.1 then (a, r.2)
        else if prevLen = seq2.length then linear_reduce pred fuel seq2 (i + 1) r.2
        else linear_reduce pred fuel seq2 (i - 1) r.2
      else if prevLen = seq2.length then linear_reduce pred fuel seq2 (i + 1) step1.2
      else linear_reduce pred fuel seq2 (i - 1) step1.2
    else (seq, s)

/-- Python comparison `a < b` on `bytes` (lexicographic, shorter prefix
smaller), as used by tuple comparison inside `sort_key`. -/
def bytesLt : List Nat → List Nat → Bool
  | [], [] => false
  | [], _ :: _ => true
  | _ :: _, [] => false
  | a :: as, b :: bs => decide (a < b) || (decide (a = b) && bytesLt as bs)

/-- `sort_key(b) = (len(b), b)` (`reducer.py`, line 14), compared as a Python
tuple: `sortKeyLtB v c` is `sort_key(v) < sort_key(c)`. -/
def sortKeyLtB (v c : List Nat) : Bool :=
  decide (v.length < c.length) || (decide (v.length = c.length) && bytesLt v c)

/-! ## Lemmas about `find_integer` on a monotone (threshold) function -/

/-- A non-increasing boolean function with a true point at `N` and a false
point at `N + 1` is the threshold function of `N`. -/
theorem mono_threshold (g : Nat → Bool) (N : Nat)
    (hmono : ∀ a b, a ≤ b → g b = true → g a = true)
    (hN : g N = true) (hN1 : g (N + 1) = false) :
    ∀ k, g k = decide (k ≤ N) := by
  intro k
  by_cases h : k ≤ N
  · simp only [h, decide_eq_true_eq, decide_True]
    exact hmono k N h hN
  · have : decide (k ≤ N) = false := by simp [h]
    rw [this]
    cases hgk : g k with
    | false => rfl
    | true =>
      have : g (N + 1) = true := hmono (N + 1) k (by omega) hgk
      rw [hN1] at this
      exact absurd this (by simp)

/-- Behaviour of the exponential probe on a threshold function, with the
trace of queried arguments: given enough fuel it reaches bounds
`lo2 ≤ N < hi2`, querying each argument at most once, every query at least
`hi`, and every query either at most `lo2` or equal to `hi2`. -/
theorem probeLoop_traced_spec (g : Nat → Bool) (N : Nat)
    (hthr : ∀ k, g k = decide (k ≤ N)) :
    ∀ fuel lo hi tr, lo ≤ N → N < hi + fuel → lo < hi → 1 ≤ hi →
      ∃ lo2 hi2 cs, probeLoop (traced g) fuel lo hi tr = (lo2, hi2, tr ++ cs) ∧
        lo ≤ lo2 ∧ lo2 ≤ N ∧ N < hi2 ∧ cs.Nodup ∧
        ∀ c ∈ cs, hi ≤ c ∧ (c ≤ lo2 ∨ c = hi2) := by
  intro fuel
  induction fuel with
  | zero =>
    intro lo hi tr hlo hhi _ _
    exact ⟨lo, hi, [], by simp [probeLoop], Nat.le_refl lo, hlo, by omega, by simp, by simp⟩
  | succ fuel ih =>
    intro lo hi tr hlo hhi hlh h1
    simp only [probeLoop, traced]
    cases hg : g hi with
    | true =>
      have hhiN : hi ≤ N := by have h := hthr hi; rw [hg] at h; simpa using h.symm
      obtain ⟨lo2, hi2, cs, hres, hle, hlo2, hhi2, hnd, hmem⟩ :=
        ih hi (hi * 2) (tr ++ [hi]) hhiN (by omega) (by omega) (by omega)
      refine ⟨lo2, hi2, hi :: cs, ?_, by omega, hlo2, hhi2, ?_, ?_⟩
      · simp only [if_pos]
        rw [hres]
        simp
      · refine List.nodup_cons.mpr ⟨?_, hnd⟩
        intro hmemhi
        have := (hmem hi hmemhi).1
        omega
      · intro c hc
        rcases List.mem_cons.mp hc with hc | hc
        · rw [hc]
          exact ⟨Nat.le_refl hi, Or.inl hle⟩
        · have := hmem c hc
          exact ⟨by omega, this.2⟩
    | false =>
      refine ⟨lo, hi, [hi], by simp, Nat.le_refl lo, hlo, ?_, by simp, ?_⟩
      · have h := hthr hi
        rw [hg] at h
        have : ¬ hi ≤ N := by simpa using h.symm
        omega
      · intro c hc
        simp only [List.mem_singleton] at hc
        rw [hc]
        exact ⟨Nat.le_refl hi, Or.inr rfl⟩

/-- Behaviour of the binary search on a threshold function, with the trace of
queried arguments: starting from `lo ≤ N < hi` it returns exactly `N`, each
query strictly between `lo` and `hi`, and each argument queried at most once. -/
theorem bsearch_traced_spec (g : Nat → Bool) (N : Nat)
    (hthr : ∀ k, g k = decide (k ≤ N)) :
    ∀ m lo hi tr, hi - lo ≤ m → lo ≤ N → N < hi →
      ∃ cs, bsearch (traced g) lo hi tr = (N, tr ++ cs) ∧ cs.Nodup ∧
        ∀ c ∈ cs, lo < c ∧ c < hi := by
  intro m
  induction m with
  | zero => intro lo hi tr hm hlo hhi; omega
  | succ m ih =>
    intro lo hi tr hm hlo hhi
    rw [bsearch]
    by_cases hc : lo + 1 < hi
    · simp only [if_pos hc, traced]
      cases hg : g ((lo + hi) / 2) with
      | true =>
        have hmidN : (lo + hi) / 2 ≤ N := by
          have h := hthr ((lo + hi) / 2); rw [hg] at h; simpa using h.symm
        obtain ⟨cs, hres, hnd, hmem⟩ :=
          ih ((lo + hi) / 2) hi (tr ++ [(lo + hi) / 2]) (by omega) hmidN hhi
        refine ⟨(lo + hi) / 2 :: cs, ?_, ?_, ?_⟩
        · rw [hres]; simp
        · refine List.nodup_cons.mpr ⟨?_, hnd⟩
          intro hmm
          have := (hmem _ hmm).1
          omega
        · intro c hcc
          rcases List.mem_cons.mp hcc with hcc | hcc
          · subst hcc; omega
          · have := hmem c hcc
            omega
      | false =>
        have hmidN : N < (lo + hi) / 2 := by
          have h := hthr ((lo + hi) / 2); rw [hg] at h
          have : ¬ (lo + hi) / 2 ≤ N := by simpa using h.symm
          omega
        obtain ⟨cs, hres, hnd, hmem⟩ :=
          ih lo ((lo + hi) / 2) (tr ++ [(lo + hi) / 2]) (by omega) hlo hmidN
        refine ⟨(lo + hi) / 2 :: cs, ?_, ?_, ?_⟩
        · rw [hres]; simp
        · refine List.nodup_cons.mpr ⟨?_, hnd⟩
          intro hmm
          have := (hmem _ hmm).2
          omega
        · intro c hcc
          rcases List.mem_cons.mp hcc with hcc | hcc
          · subst hcc; omega
          · have := hmem c hcc
            omega
    · simp only [if_neg hc]
      have hNlo : N = lo := by omega
      exact ⟨[], by simp [hNlo], by simp, by simp⟩

/-- C1: for every non-increasing boolean function `f` with `f(0) = true`,
`f(N) = true` and `f(N + 1) = false`, `find_integer(f)` returns exactly `N`;
during the search it never invokes `f` at `0`, and it invokes `f` at most once
per distinct argument (the recorded trace of queried arguments has no
duplicates).  `fuel` only bounds the exponential-probe loop, which the source
runs without bound; any `fuel ≥ N + 1` is more than the loop can consume. -/
theorem find_integer_contract (g : Nat → Bool) (N fuel : Nat)
    (hmono : ∀ a b, a ≤ b → g b = true → g a = true)
    (_h0 : g 0 = true) (hN : g N = true) (hN1 : g (N + 1) = false)
    (hfuel : N + 1 ≤ fuel) :
    (find_integer fuel (traced g) []).1 = N ∧
    0 ∉ (find_integer fuel (traced g) []).2 ∧
    (find_integer fuel (traced g) []).2.Nodup := by
  have hthr := mono_threshold g N hmono hN hN1
  by_cases h4 : N < 4
  · interval_cases N <;> simp [find_integer, traced, hthr]
  · have h1 : g 1 = true := by rw [hthr]; simp; omega
    have h2 : g 2 = true := by rw [hthr]; simp; omega
    have h3 : g 3 = true := by rw [hthr]; simp; omega
    have hg4 : g 4 = true := by rw [hthr]; simp; omega
    obtain ⟨lo2, hi2, cs1, hres1, hle1, hlo2, hhi2, hnd1, hmem1⟩ :=
      probeLoop_traced_spec g N hthr fuel 4 5 [1, 2, 3, 4] (by omega) (by omega)
        (by omega) (by omega)
    obtain ⟨cs2, hres2, hnd2, hmem2⟩ :=
      bsearch_traced_spec g N hthr (hi2 - lo2) lo2 hi2 ([1, 2, 3, 4] ++ cs1)
        (Nat.le_refl _) hlo2 hhi2
    have hfi : find_integer fuel (traced g) [] = (N, ([1, 2, 3, 4] ++ cs1) ++ cs2) := by
      simp only [find_integer, traced, h1, h2, h3, hg4, Bool.not_true, Bool.false_eq_true,
        if_false, List.nil_append]
      have e : ([1] : List Nat) ++ [2] ++ [3] ++ [4] = [1, 2, 3, 4] := rfl
      rw [e, hres1]
      exact hres2
    rw [hfi]
    refine ⟨rfl, ?_, ?_⟩
    · intro hmem
      simp only [List.mem_append] at hmem
      rcases hmem with (hmem | hmem) | hmem
      · simp at hmem
      · have := (hmem1 0 hmem).1; omega
      · have := (hmem2 0 hmem).1; omega
    · rw [List.nodup_append, List.nodup_append]
      refine ⟨⟨by decide, hnd1, ?_⟩, hnd2, ?_⟩
      · intro a ha hacs
        have h5 := (hmem1 a hacs).1
        simp only [List.mem_cons, List.not_mem_nil, or_false] at ha
        omega
      · intro a ha hacs2
        have h5 := hmem2 a hacs2
        simp only [List.mem_append, List.mem_cons, List.not_mem_nil, or_false] at ha
        rcases ha with ha | ha
        · omega
        · rcases (hmem1 a ha).2 with h | h <;> omega

/-- Witness for C1 at the threshold function of 6 with fuel 7: the result is
6, the argument 0 is never queried, and no argument is queried twice. -/
theorem find_integer_contract_witness :
    (find_integer 7 (traced (fun n => decide (n ≤ 6))) []).1 = 6 ∧
    0 ∉ (find_integer 7 (traced (fun n => decide (n ≤ 6))) []).2 ∧
    (find_integer 7 (traced (fun n => decide (n ≤ 6))) []).2.Nodup :=
  find_integer_contract (fun n => decide (n ≤ 6)) 6 7
    (by intro a b hab hb; simp only [decide_eq_true_eq] at hb ⊢; omega)
    (by decide) (by decide) (by decide) (by decide)

/-- The concrete predicate of C3's failing input: accepts exactly the byte
string `[1, 3]`, recording each submitted candidate in the trace state. -/
def cePred : List Nat → List (List Nat) → Bool × List (List Nat) :=
  fun v tr => (decide (v = [1, 3]), tr ++ [v])

/-- C3: `linear_reduce` does NOT consider every index for removal.  On input
`[0, 1, 2, 3]` with a predicate accepting exactly `[1, 3]`, the sweep submits
only the candidates `[1,2,3]`, `[2,3]`, `[3]`, `[1,3]` — each of which contains
the final element `3` — and then the accepted pair-delete probe `break`s out of
the whole sweep, returning `[1, 3]`.  So the element `3` is neither deleted nor
ever omitted from any submitted candidate, contradicting both the claim and
the function's own docstring ("guaranteeing that it has tried removing every
single element in the input"). -/
theorem linear_reduce_misses_element :
    (linear_reduce cePred 10 [0, 1, 2, 3] 0 []).1 = [1, 3] ∧
    3 ∈ (linear_reduce cePred 10 [0, 1, 2, 3] 0 []).1 ∧
    (linear_reduce cePred 10 [0, 1, 2, 3] 0 []).2 =
      [[1, 2, 3], [2, 3], [3], [1, 3]] ∧
    ∀ c ∈ (linear_reduce cePred 10 [0, 1, 2, 3] 0 []).2, 3 ∈ c := by
  decide

/-! ## The reducer state: current best and fingerprint cache -/

/-- Basic order facts for Python byte comparison. -/
theorem bytesLt_irrefl : ∀ a, bytesLt a a = false
  | [] => rfl
  | x :: xs => by simp [bytesLt, bytesLt_irrefl xs]

/-- Transitivity of Python byte comparison. -/
theorem bytesLt_trans : ∀ a b c, bytesLt a b = true → bytesLt b c = true →
    bytesLt a c = true := by
  intro a
  induction a with
  | nil =>
    intro b c hab hbc
    cases b with
    | nil => simp [bytesLt] at hab
    | cons y ys =>
      cases c with
      | nil => simp [bytesLt] at hbc
      | cons z zs => simp [bytesLt]
  | cons x xs ih =>
    intro b c hab hbc
    cases b with
    | nil => simp [bytesLt] at hab
    | cons y ys =>
      cases c with
      | nil => simp [bytesLt] at hbc
      | cons z zs =>
        simp only [bytesLt, Bool.or_eq_true, Bool.and_eq_true, decide_eq_true_eq]
          at hab hbc ⊢
        rcases hab with h | ⟨he, hlt⟩
        · rcases hbc with h2 | ⟨he2, _⟩
          · exact Or.inl (by omega)
          · exact Or.inl (by omega)
        · rcases hbc with h2 | ⟨he2, hlt2⟩
          · exact Or.inl (by omega)
          · exact Or.inr ⟨by omega, ih ys zs hlt hlt2⟩

/-- `sort_key` comparison is irreflexive. -/
theorem sortKeyLtB_irrefl (a : List Nat) : sortKeyLtB a a = false := by
  simp [sortKeyLtB, bytesLt_irrefl]

/-- `sort_key` comparison is transitive. -/
theorem sortKeyLtB_trans {a b c : List Nat} (hab : sortKeyLtB a b = true)
    (hbc : sortKeyLtB b c = true) : sortKeyLtB a c = true := by
  simp only [sortKeyLtB, Bool.or_eq_true, Bool.and_eq_true, decide_eq_true_eq]
    at hab hbc ⊢
  rcases hab with h | ⟨he, hlt⟩
  · rcases hbc with h2 | ⟨he2, _⟩
    · exact Or.inl (by omega)
    · exact Or.inl (by omega)
  · rcases hbc with h2 | ⟨he2, hlt2⟩
    · exact Or.inl (by omega)
    · exact Or.inr ⟨by omega, bytesLt_trans a b c hlt hlt2⟩

/-- The mutable state of a `Reducer` (`reducer.py`, `__init__`): the current
best byte string and the fingerprint cache (`self.current`, `self.__cache`).
The Python dict maps each fingerprint to at most one verdict; it is modelled
as an association list in which a key is inserted only when absent. -/
structure RState where
  current : List Nat
  cache : List (Nat × Bool)
deriving Repr, DecidableEq

namespace Reducer

/-- `Reducer.predicate(value)` (`reducer.py`, lines 48-68): answer from the
cache when the fingerprint is present; otherwise invoke the external
predicate `p`, replace `current` when the verdict is true and `value` is a
strict `sort_key` shrink, and store the verdict. -/
def predicate (p : List Nat → Bool) (fp : List Nat → Nat) (value : List Nat)
    (s : RState) : Bool × RState :=
  match s.cache.lookup (fp value) with
  | some v => (v, s)
  | none =>
    let result := p value
    if result && sortKeyLtB value s.current then
      (result, ⟨value, (fp value, result) :: s.cache⟩)
    else
      (result, ⟨s.current, (fp value, result) :: s.cache⟩)

/-- `Reducer.attempt(value)` (`reducer.py`, lines 70-72): short-circuit — the
cached predicate is consulted only when `value` is a strict `sort_key`
shrink of `current`. -/
def attempt (p : List Nat → Bool) (fp : List Nat → Nat) (value : List Nat)
    (s : RState) : Bool × RState :=
  if sortKeyLtB value s.current then predicate p fp value s else (false, s)

/-- `Reducer.__init__` (`reducer.py`, lines 29-41): evaluate the external
predicate on the initial value; raise (`none`) when it is false, otherwise
record the verdict in the cache and start with `current = initial`. -/
def init (p : List Nat → Bool) (fp : List Nat → Nat) (initial : List Nat) :
    Option RState :=
  let result := p initial
  if result then some ⟨initial, [(fp initial, result)]⟩ else none

end Reducer

/-- Soundness invariant of the cache with respect to the current best: any
byte string whose fingerprint is cached with a `true` verdict is not a strict
`sort_key` shrink of `current` (it was `current` itself once, or lost a tie,
and `current` only ever decreased since).  It holds at construction and is
preserved by every cached-predicate call when the fingerprint function is
injective (i.e. modulo fingerprint collisions). -/
def CacheSound (fp : List Nat → Nat) (s : RState) : Prop :=
  ∀ v, s.cache.lookup (fp v) = some true → sortKeyLtB v s.current = false

/-- Association-list lookup at a cons cell whose key matches. -/
theorem lookup_cons_same (k a : Nat) (b : Bool) (l : List (Nat × Bool)) (h : k = a) :
    List.lookup a ((k, b) :: l) = some b := by
  subst h
  simp [List.lookup_cons]

/-- Association-list lookup at a cons cell whose key differs. -/
theorem lookup_cons_diff (k a : Nat) (b : Bool) (l : List (Nat × Bool)) (h : k ≠ a) :
    List.lookup a ((k, b) :: l) = List.lookup a l := by
  rw [List.lookup_cons, beq_false_of_ne (fun hh => h hh.symm)]

/-- C2: with an injective fingerprint (no collisions), under the cache
soundness invariant: (1) `sort_key(current)` never increases across a cached
predicate call; (2) `current` is replaced only when the external predicate
accepts a value strictly smaller by `sort_key`, and then it becomes that
value; (3) the invariant is preserved, and (5) it holds in the state built at
construction — so by induction it holds throughout a run; (4) every
`attempt` call that returns true strictly decreases `sort_key(current)`. -/
theorem monotone_shrink (p : List Nat → Bool) (fp : List Nat → Nat)
    (hinj : Function.Injective fp) (s : RState) (value : List Nat)
    (hs : CacheSound fp s) :
    ((Reducer.predicate p fp value s).2.current = s.current ∨
      sortKeyLtB (Reducer.predicate p fp value s).2.current s.current = true) ∧
    ((Reducer.predicate p fp value s).2.current ≠ s.current →
      p value = true ∧ sortKeyLtB value s.current = true ∧
      (Reducer.predicate p fp value s).2.current = value) ∧
    CacheSound fp (Reducer.predicate p fp value s).2 ∧
    ((Reducer.attempt p fp value s).1 = true →
      sortKeyLtB (Reducer.attempt p fp value s).2.current s.current = true ∧
      (Reducer.attempt p fp value s).2.current = value) ∧
    (∀ ini : List Nat, CacheSound fp ⟨ini, [(fp ini, true)]⟩) := by
  have hinit : ∀ ini : List Nat, CacheSound fp ⟨ini, [(fp ini, true)]⟩ := by
    intro ini v hv
    by_cases he : fp ini = fp v
    · have heq : ini = v := hinj he
      subst heq
      exact sortKeyLtB_irrefl ini
    · rw [lookup_cons_diff _ _ _ _ he] at hv
      simp at hv
  cases hlk : s.cache.lookup (fp value) with
  | some v =>
    have hpred : Reducer.predicate p fp value s = (v, s) := by
      simp [Reducer.predicate, hlk]
    have hatt : (Reducer.attempt p fp value s).1 = true →
        sortKeyLtB (Reducer.attempt p fp value s).2.current s.current = true ∧
        (Reducer.attempt p fp value s).2.current = value := by
      intro htrue
      by_cases hlt : sortKeyLtB value s.current = true
      · have ha : Reducer.attempt p fp value s = (v, s) := by
          simp only [Reducer.attempt]
          rw [if_pos hlt, hpred]
        rw [ha] at htrue
        have hvt : v = true := htrue
        rw [hvt] at hlk
        have := hs value hlk
        rw [this] at hlt
        exact absurd hlt (by simp)
      · have ha : Reducer.attempt p fp value s = (false, s) := by
          simp only [Reducer.attempt]
          rw [if_neg hlt]
        rw [ha] at htrue
        simp at htrue
    rw [hpred]
    exact ⟨Or.inl rfl, fun h => absurd rfl h, hs, hatt, hinit⟩
  | none =>
    cases hres : p value with
    | true =>
      by_cases hlt : sortKeyLtB value s.current = true
      · have hpred : Reducer.predicate p fp value s =
            (true, ⟨value, (fp value, true) :: s.cache⟩) := by
          simp [Reducer.predicate, hlk, hres, hlt]
        have hsound : CacheSound fp ⟨value, (fp value, true) :: s.cache⟩ := by
          intro w hw
          by_cases he : fp value = fp w
          · have heq : value = w := hinj he
            subst heq
            exact sortKeyLtB_irrefl value
          · rw [lookup_cons_diff _ _ _ _ he] at hw
            have hws := hs w hw
            cases hwv : sortKeyLtB w value with
            | false => rfl
            | true =>
              have htr := sortKeyLtB_trans hwv hlt
              rw [hws] at htr
              exact absurd htr (by simp)
        have ha : Reducer.attempt p fp value s = Reducer.predicate p fp value s := by
          simp only [Reducer.attempt]
          rw [if_pos hlt]
        rw [hpred]
        refine ⟨Or.inr hlt, fun _ => ⟨rfl, hlt, rfl⟩, hsound, ?_, hinit⟩
        intro _
        rw [ha, hpred]
        exact ⟨hlt, rfl⟩
      · have hpred : Reducer.predicate p fp value s =
            (true, ⟨s.current, (fp value, true) :: s.cache⟩) := by
          simp [Reducer.predicate, hlk, hres, hlt]
        have hsound : CacheSound fp ⟨s.current, (fp value, true) :: s.cache⟩ := by
          intro w hw
          by_cases he : fp value = fp w
          · have heq : value = w := hinj he
            subst heq
            exact Bool.not_eq_true _ |>.mp hlt
          · rw [lookup_cons_diff _ _ _ _ he] at hw
            exact hs w hw
        have ha : Reducer.attempt p fp value s = (false, s) := by
          simp only [Reducer.attempt]
          rw [if_neg hlt]
        rw [hpred]
        refine ⟨Or.inl rfl, fun h => absurd rfl h, hsound, ?_, hinit⟩
        intro htrue
        rw [ha] at htrue
        simp at htrue
    | false =>
      have hpred : Reducer.predicate p fp value s =
          (false, ⟨s.current, (fp value, false) :: s.cache⟩) := by
        simp [Reducer.predicate, hlk, hres]
      have hsound : CacheSound fp ⟨s.current, (fp value, false) :: s.cache⟩ := by
        intro w hw
        by_cases he : fp value = fp w
        · rw [lookup_cons_same _ _ _ _ he] at hw
          simp at hw
        · rw [lookup_cons_diff _ _ _ _ he] at hw
          exact hs w hw
      have hatt : (Reducer.attempt p fp value s).1 = true →
          sortKeyLtB (Reducer.attempt p fp value s).2.current s.current = true ∧
          (Reducer.attempt p fp value s).2.current = value := by
        intro htrue
        by_cases hlt : sortKeyLtB value s.current = true
        · have ha : Reducer.attempt p fp value s =
              (false, ⟨s.current, (fp value, false) :: s.cache⟩) := by
            simp only [Reducer.attempt]
            rw [if_pos hlt, hpred]
          rw [ha] at htrue
          simp at htrue
        · have ha : Reducer.attempt p fp value s = (false, s) := by
            simp only [Reducer.attempt]
            rw [if_neg hlt]
          rw [ha] at htrue
          simp at htrue
      rw [hpred]
      exact ⟨Or.inl rfl, fun h => absurd rfl h, hsound, hatt, hinit⟩

/-- Witness for C2 with the injective fingerprint `Encodable.encode`, an
empty cache (trivially sound) and a concrete submission. -/
theorem monotone_shrink_witness :
    (((Reducer.predicate (fun _ => true) Encodable.encode [] ⟨[5], []⟩).2.current
        = RState.current ⟨[5], []⟩ ∨
      sortKeyLtB (Reducer.predicate (fun _ => true) Encodable.encode []
        ⟨[5], []⟩).2.current (RState.current ⟨[5], []⟩) = true) ∧
    ((Reducer.predicate (fun _ => true) Encodable.encode [] ⟨[5], []⟩).2.current
        ≠ RState.current ⟨[5], []⟩ →
      (fun _ => true) ([] : List Nat) = true ∧
      sortKeyLtB [] (RState.current ⟨[5], []⟩) = true ∧
      (Reducer.predicate (fun _ => true) Encodable.encode [] ⟨[5], []⟩).2.current = []) ∧
    CacheSound Encodable.encode
      (Reducer.predicate (fun _ => true) Encodable.encode [] ⟨[5], []⟩).2 ∧
    ((Reducer.attempt (fun _ => true) Encodable.encode [] ⟨[5], []⟩).1 = true →
      sortKeyLtB (Reducer.attempt (fun _ => true) Encodable.encode []
        ⟨[5], []⟩).2.current (RState.current ⟨[5], []⟩) = true ∧
      (Reducer.attempt (fun _ => true) Encodable.encode [] ⟨[5], []⟩).2.current = []) ∧
    (∀ ini : List Nat, CacheSound Encodable.encode ⟨ini, [(Encodable.encode ini, true)]⟩)) :=
  monotone_shrink (fun _ => true) Encodable.encode Encodable.encode_injective
    ⟨[5], []⟩ [] (by intro v hv; simp at hv)

/-- C7: construction of the reducer fails exactly when the external predicate
rejects the initial input; on success, `current` is the initial input and the
initial verdict is recorded in the cache. -/
theorem init_contract (p : List Nat → Bool) (fp : List Nat → Nat)
    (initial : List Nat) :
    (Reducer.init p fp initial = none ↔ p initial = false) ∧
    (∀ s, Reducer.init p fp initial = some s →
      s.current = initial ∧ s.cache.lookup (fp initial) = some true) := by
  cases hres : p initial with
  | true =>
    refine ⟨by simp [Reducer.init, hres], ?_⟩
    intro s hsome
    simp only [Reducer.init, hres, if_pos] at hsome
    have hs : s = ⟨initial, [(fp initial, true)]⟩ := by
      cases hsome
      rfl
    subst hs
    exact ⟨rfl, lookup_cons_same _ _ _ _ rfl⟩
  | false => simp [Reducer.init, hres]

/-- Witness for C7: an always-true predicate accepts the initial input, so
construction succeeds, `current` is the initial input, and the verdict is in
the cache. -/
theorem init_contract_witness :
    (Reducer.init (fun _ => true) (fun _ => 0) [1] = none ↔
      (fun _ => true) ([1] : List Nat) = false) ∧
    (∀ s, Reducer.init (fun _ => true) (fun _ => 0) [1] = some s →
      s.current = [1] ∧ s.cache.lookup ((fun _ => 0) ([1] : List Nat)) = some true) :=
  init_contract (fun _ => true) (fun _ => 0) [1]

/-- C10: when the fingerprint of the submitted value is already in the cache,
the cached predicate returns the stored verdict and the whole engine state —
`current` and the cache — is unchanged, even when the stored verdict is true
and the value is a strict shrink of `current` (as under a collision). -/
theorem predicate_cache_hit (p : List Nat → Bool) (fp : List Nat → Nat)
    (value : List Nat) (s : RState) (b : Bool)
    (h : s.cache.lookup (fp value) = some b) :
    Reducer.predicate p fp value s = (b, s) := by
  simp [Reducer.predicate, h]

/-- Witness for C10, exhibiting the collision scenario: the fingerprint is
constant, the cache stores `true` for it, the external predicate would say
`false`, and the value `[]` is a strict `sort_key` shrink of `current = [0]`;
still the call returns the cached `true` verdict and changes nothing. -/
theorem predicate_cache_hit_witness :
    Reducer.predicate (fun _ => false) (fun _ => 0) [] ⟨[0], [(0, true)]⟩ =
      (true, ⟨[0], [(0, true)]⟩) ∧
    sortKeyLtB [] [0] = true :=
  ⟨predicate_cache_hit (fun _ => false) (fun _ => 0) [] ⟨[0], [(0, true)]⟩ true rfl,
    rfl⟩

/-- Shared helper: a cached predicate call whose fingerprint is in the cache
returns the stored verdict with the state untouched. -/
theorem predicate_hit (p : List Nat → Bool) (fp : List Nat → Nat)
    (value : List Nat) (s : RState) (b : Bool)
    (h : s.cache.lookup (fp value) = some b) :
    Reducer.predicate p fp value s = (b, s) := by
  simp [Reducer.predicate, h]

/-- On a cache miss the cached predicate stores the external verdict under
the value's fingerprint (both branches of the shrink test do). -/
theorem predicate_cache_none (p : List Nat → Bool) (fp : List Nat → Nat)
    (value : List Nat) (s : RState)
    (hlk : s.cache.lookup (fp value) = none) :
    (Reducer.predicate p fp value s).2.cache = (fp value, p value) :: s.cache := by
  simp only [Reducer.predicate, hlk]
  split <;> rfl

/-- Cache entries persist across a cached predicate call, with their verdict
unchanged. -/
theorem predicate_lookup_mono (p : List Nat → Bool) (fp : List Nat → Nat)
    (value : List Nat) (s : RState) (k : Nat) (b : Bool)
    (h : s.cache.lookup k = some b) :
    (Reducer.predicate p fp value s).2.cache.lookup k = some b := by
  cases hlk : s.cache.lookup (fp value) with
  | some v =>
    rw [predicate_hit p fp value s v hlk]
    exact h
  | none =>
    rw [predicate_cache_none p fp value s hlk]
    have hk : fp value ≠ k := by
      intro he
      rw [he, h] at hlk
      simp at hlk
    rw [lookup_cons_diff _ _ _ _ hk]
    exact h

/-- A fingerprint absent from the cache after a cached predicate call was
already absent before it. -/
theorem predicate_lookup_none (p : List Nat → Bool) (fp : List Nat → Nat)
    (value : List Nat) (s : RState) (k : Nat)
    (h : (Reducer.predicate p fp value s).2.cache.lookup k = none) :
    s.cache.lookup k = none := by
  cases hk : s.cache.lookup k with
  | none => rfl
  | some b =>
    have hmono := predicate_lookup_mono p fp value s k b hk
    rw [hmono] at h
    exact absurd h (by simp)

/-- A sequence of submissions to the cached predicate (`reducer.py`,
`Reducer.predicate`), returning the final state together with the list of
values on which the *external* predicate was invoked (the cache misses). -/
def runSubs (p : List Nat → Bool) (fp : List Nat → Nat) :
    List (List Nat) → RState → RState × List (List Nat)
  | [], s => (s, [])
  | v :: vs, s =>
    let called := (s.cache.lookup (fp v)).isNone
    let rest := runSubs p fp vs (Reducer.predicate p fp v s).2
    (rest.1, (if called then [v] else []) ++ rest.2)

/-- C4: across any run of submissions, the external predicate is invoked at
most once per fingerprint — the invoked values have pairwise distinct
fingerprints, none of which was already cached at the start — a verdict
stored under a fingerprint persists unchanged for the lifetime of the run,
and a submission whose fingerprint is cached is answered with the stored
verdict. -/
theorem cache_run_contract (p : List Nat → Bool) (fp : List Nat → Nat) :
    ∀ (vs : List (List Nat)) (s : RState),
      ((runSubs p fp vs s).2.map fp).Nodup ∧
      (∀ v ∈ (runSubs p fp vs s).2, s.cache.lookup (fp v) = none) ∧
      (∀ k b, s.cache.lookup k = some b →
        (runSubs p fp vs s).1.cache.lookup k = some b) ∧
      (∀ v b, s.cache.lookup (fp v) = some b → (Reducer.predicate p fp v s).1 = b) := by
  intro vs
  induction vs with
  | nil =>
    intro s
    refine ⟨by simp [runSubs], by simp [runSubs], ?_, ?_⟩
    · intro k b h
      simpa [runSubs] using h
    · intro v b h
      rw [predicate_hit p fp v s b h]
  | cons v vs ih =>
    intro s
    cases hcall : s.cache.lookup (fp v) with
    | some b0 =>
      obtain ⟨ihnd, ihfresh, ihmono, _⟩ := ih s
      have hstep : Reducer.predicate p fp v s = (b0, s) :=
        predicate_hit p fp v s b0 hcall
      have hrun : runSubs p fp (v :: vs) s = runSubs p fp vs s := by
        simp [runSubs, hcall, hstep]
      rw [hrun]
      refine ⟨ihnd, ihfresh, ihmono, ?_⟩
      intro w b h
      rw [predicate_hit p fp w s b h]
    | none =>
      obtain ⟨ihnd, ihfresh, ihmono, _⟩ := ih (Reducer.predicate p fp v s).2
      have hcache := predicate_cache_none p fp v s hcall
      have hrun : runSubs p fp (v :: vs) s =
          ((runSubs p fp vs (Reducer.predicate p fp v s).2).1,
            v :: (runSubs p fp vs (Reducer.predicate p fp v s).2).2) := by
        simp [runSubs, hcall]
      rw [hrun]
      refine ⟨?_, ?_, ?_, ?_⟩
      · simp only [List.map_cons]
        refine List.nodup_cons.mpr ⟨?_, ihnd⟩
        intro hmem
        simp only [List.mem_map] at hmem
        obtain ⟨w, hw, hfpw⟩ := hmem
        have h1 := ihfresh w hw
        rw [hcache, lookup_cons_same _ _ _ _ hfpw.symm] at h1
        exact absurd h1 (by simp)
      · intro w hw
        rcases List.mem_cons.mp hw with hw | hw
        · rw [hw]
          exact hcall
        · have h1 := ihfresh w hw
          rw [hcache] at h1
          by_cases he : fp v = fp w
          · rw [lookup_cons_same _ _ _ _ he] at h1
            exact absurd h1 (by simp)
          · rw [lookup_cons_diff _ _ _ _ he] at h1
            exact h1
      · intro k b h
        refine ihmono k b ?_
        rw [hcache]
        have hk : fp v ≠ k := by
          intro he
          rw [he, h] at hcall
          exact absurd hcall (by simp)
        rw [lookup_cons_diff _ _ _ _ hk]
        exact h
      · intro w b h
        rw [predicate_hit p fp w s b h]

/-- Witness for C4 at a concrete run: the value `[0]` is submitted twice from
an empty cache; the conjunction instantiates the run-level contract there. -/
theorem cache_run_contract_witness :
    ((runSubs (fun _ => true) (fun v => v.length) [[0], [0]] ⟨[0], []⟩).2.map
      (fun v : List Nat => v.length)).Nodup ∧
    (∀ v ∈ (runSubs (fun _ => true) (fun v => v.length) [[0], [0]] ⟨[0], []⟩).2,
      (RState.cache ⟨[0], []⟩).lookup v.length = none) ∧
    (∀ k b, (RState.cache ⟨[0], []⟩).lookup k = some b →
      (runSubs (fun _ => true) (fun v => v.length) [[0], [0]]
        ⟨[0], []⟩).1.cache.lookup k = some b) ∧
    (∀ v b, (RState.cache ⟨[0], []⟩).lookup v.length = some b →
      (Reducer.predicate (fun _ => true) (fun v => v.length) v ⟨[0], []⟩).1 = b) :=
  cache_run_contract (fun _ => true) (fun v => v.length) [[0], [0]] ⟨[0], []⟩

/-! ## Bracket pairing -/

/-- Scan loop of `Reducer.find_paired_brackets` (`reducer.py`, lines
117-131): walk the remaining bytes with the absolute index `i` of the head,
pushing indices of `left` bytes and, on a `right` byte, popping and emitting
a pair when the stack is non-empty (the `elif` ordering means a byte equal to
both `left` and `right` is treated as `left`). -/
def fpbAux (left right : Nat) : List Nat → Nat → List Nat → List (Nat × Nat)
  | [], _, _ => []
  | c :: rest, i, stack =>
    if c = left then fpbAux left right rest (i + 1) (i :: stack)
    else if c = right then
      match stack with
      | [] => fpbAux left right rest (i + 1) []
      | j :: stack2 => (j, i) :: fpbAux left right rest (i + 1) stack2
    else fpbAux left right rest (i + 1) stack

/-- `Reducer.find_paired_brackets(bracket, target)`: all balanced pairs of
indices found by the left-to-right stack scan. -/
def Reducer.find_paired_brackets (left right : Nat) (target : List Nat) :
    List (Nat × Nat) :=
  fpbAux left right target 0 []

/-- Invariant of the bracket scan: provided every stacked index is a distinct
`left` position below `i` and the remaining bytes are the suffix of `target`
from `i`, every emitted pair has its first component on the stack or at
index at least `i`, second component at least `i`, first strictly below
second, correct bytes at both endpoints, and no two emitted pairs share an
endpoint. -/
theorem fpbAux_spec (left right : Nat) (target : List Nat) :
    ∀ (rest : List Nat) (i : Nat) (stack : List Nat),
      (∀ k, rest[k]? = target[i + k]?) →
      (∀ x ∈ stack, x < i ∧ target[x]? = some left) →
      stack.Nodup →
      (∀ pr ∈ fpbAux left right rest i stack,
        (pr.1 ∈ stack ∨ i ≤ pr.1) ∧ i ≤ pr.2 ∧ pr.1 < pr.2 ∧
        target[pr.1]? = some left ∧ target[pr.2]? = some right) ∧
      (fpbAux left right rest i stack).Pairwise
        (fun pr q => pr.1 ≠ q.1 ∧ pr.1 ≠ q.2 ∧ pr.2 ≠ q.1 ∧ pr.2 ≠ q.2) := by
  intro rest
  induction rest with
  | nil =>
    intro i stack _ _ _
    exact ⟨by simp [fpbAux], by simp [fpbAux]⟩
  | cons c rest ih =>
    intro i stack hrest hstack hnd
    have hc : target[i]? = some c := by
      have h0 := hrest 0
      simpa using h0.symm
    have hrest2 : ∀ k, rest[k]? = target[i + 1 + k]? := by
      intro k
      have hk := hrest (k + 1)
      rw [show i + (k + 1) = i + 1 + k by omega] at hk
      simpa using hk
    by_cases hcl : c = left
    · have hstack2 : ∀ x ∈ i :: stack, x < i + 1 ∧ target[x]? = some left := by
        intro x hx
        rcases List.mem_cons.mp hx with hx | hx
        · rw [hx]
          rw [hcl] at hc
          exact ⟨by omega, hc⟩
        · have h := hstack x hx
          exact ⟨by omega, h.2⟩
      have hnd2 : (i :: stack).Nodup := by
        refine List.nodup_cons.mpr ⟨?_, hnd⟩
        intro hmem
        have := (hstack i hmem).1
        omega
      have hmain := ih (i + 1) (i :: stack) hrest2 hstack2 hnd2
      rw [show fpbAux left right (c :: rest) i stack =
        fpbAux left right rest (i + 1) (i :: stack) from by simp [fpbAux, hcl]]
      refine ⟨?_, hmain.2⟩
      intro pr hpr
      obtain ⟨h1, h2, h3, h4, h5⟩ := hmain.1 pr hpr
      refine ⟨?_, by omega, h3, h4, h5⟩
      rcases h1 with hm | hm
      · rcases List.mem_cons.mp hm with hm | hm
        · right
          omega
        · left
          exact hm
      · right
        omega
    · by_cases hcr : c = right
      · cases stack with
        | nil =>
          rw [show fpbAux left right (c :: rest) i [] =
            fpbAux left right rest (i + 1) [] from by
              simp only [fpbAux]
              rw [if_neg hcl, if_pos hcr]]
          have hmain := ih (i + 1) [] hrest2 (by simp) (by simp)
          refine ⟨?_, hmain.2⟩
          intro pr hpr
          obtain ⟨h1, h2, h3, h4, h5⟩ := hmain.1 pr hpr
          refine ⟨?_, by omega, h3, h4, h5⟩
          rcases h1 with hm | hm
          · exact absurd hm (by simp)
          · right
            omega
        | cons j stack2 =>
          have hj := hstack j (List.mem_cons_self j stack2)
          have hstack2 : ∀ x ∈ stack2, x < i + 1 ∧ target[x]? = some left := by
            intro x hx
            have h := hstack x (List.mem_cons_of_mem j hx)
            exact ⟨by omega, h.2⟩
          have hnd2 : stack2.Nodup := (List.nodup_cons.mp hnd).2
          have hjnot : j ∉ stack2 := (List.nodup_cons.mp hnd).1
          have hmain := ih (i + 1) stack2 hrest2 hstack2 hnd2
          rw [show fpbAux left right (c :: rest) i (j :: stack2) =
            (j, i) :: fpbAux left right rest (i + 1) stack2 from by
              simp only [fpbAux]
              rw [if_neg hcl, if_pos hcr]]
          constructor
          · intro pr hpr
            rcases List.mem_cons.mp hpr with hpr | hpr
            · rw [hpr]
              rw [hcr] at hc
              exact ⟨Or.inl (List.mem_cons_self j stack2), Nat.le_refl i, hj.1,
                hj.2, hc⟩
            · obtain ⟨h1, h2, h3, h4, h5⟩ := hmain.1 pr hpr
              refine ⟨?_, by omega, h3, h4, h5⟩
              rcases h1 with hm | hm
              · left
                exact List.mem_cons_of_mem j hm
              · right
                omega
          · refine List.pairwise_cons.mpr ⟨?_, hmain.2⟩
            intro q hq
            obtain ⟨h1, h2, h3, h4, h5⟩ := hmain.1 q hq
            have hji : j < i := hj.1
            refine ⟨?_, ?_, ?_, ?_⟩
            · intro he
              rcases h1 with hm | hm
              · rw [← he] at hm
                exact hjnot hm
              · omega
            · intro he
              omega
            · intro he
              rcases h1 with hm | hm
              · have := (hstack q.1 (List.mem_cons_of_mem j hm)).1
                omega
              · omega
            · intro he
              omega
      · rw [show fpbAux left right (c :: rest) i stack =
          fpbAux left right rest (i + 1) stack from by simp [fpbAux, hcl, hcr]]
        have hstack2 : ∀ x ∈ stack, x < i + 1 ∧ target[x]? = some left := by
          intro x hx
          have h := hstack x hx
          exact ⟨by omega, h.2⟩
        have hmain := ih (i + 1) stack hrest2 hstack2 hnd
        refine ⟨?_, hmain.2⟩
        intro pr hpr
        obtain ⟨h1, h2, h3, h4, h5⟩ := hmain.1 pr hpr
        refine ⟨?_, by omega, h3, h4, h5⟩
        rcases h1 with hm | hm
        · left
          exact hm
        · right
          omega

/-- C8: every pair `(i, j)` emitted by `find_paired_brackets` satisfies
`i < j`, `target[i]` is the open byte and `target[j]` the close byte, and no
index occurs as an endpoint of two distinct emitted pairs (nor twice within
one pair, by `i < j`).  Closes with an empty stack are discarded and
unmatched opens never emitted: only matched push/pop events produce pairs. -/
theorem find_paired_brackets_spec (left right : Nat) (target : List Nat) :
    (∀ pr ∈ Reducer.find_paired_brackets left right target,
      pr.1 < pr.2 ∧ target[pr.1]? = some left ∧ target[pr.2]? = some right) ∧
    (Reducer.find_paired_brackets left right target).Pairwise
      (fun pr q => pr.1 ≠ q.1 ∧ pr.1 ≠ q.2 ∧ pr.2 ≠ q.1 ∧ pr.2 ≠ q.2) := by
  have h := fpbAux_spec left right target target 0 [] (by intro k; simp)
    (by simp) (by simp)
  simp only [Reducer.find_paired_brackets]
  refine ⟨?_, h.2⟩
  intro pr hpr
  obtain ⟨_, _, h3, h4, h5⟩ := h.1 pr hpr
  exact ⟨h3, h4, h5⟩

/-- Witness for C8 on the concrete target `"{()}"` (bytes 123, 40, 41, 125)
with the `{}` bracket kind. -/
theorem find_paired_brackets_spec_witness :
    (∀ pr ∈ Reducer.find_paired_brackets 123 125 [123, 40, 41, 125],
      pr.1 < pr.2 ∧ [123, 40, 41, 125][pr.1]? = some 123 ∧
      [123, 40, 41, 125][pr.2]? = some 125) ∧
    (Reducer.find_paired_brackets 123 125 [123, 40, 41, 125]).Pairwise
      (fun pr q => pr.1 ≠ q.1 ∧ pr.1 ≠ q.2 ∧ pr.2 ≠ q.1 ∧ pr.2 ≠ q.2) :=
  find_paired_brackets_spec 123 125 [123, 40, 41, 125]

/-! ## Delimiter-based reduction -/

/-- Python `sep.join(parts)`. -/
def joinWith (d : List Nat) : List (List Nat) → List Nat
  | [] => []
  | [x] => x
  | x :: y :: xs => x ++ d ++ joinWith d (y :: xs)

/-- Joining with the empty separator is concatenation of the head with the
join of the tail. -/
theorem joinWith_nil_cons (x : List Nat) (xs : List (List Nat)) :
    joinWith [] (x :: xs) = x ++ joinWith [] xs := by
  cases xs <;> simp [joinWith]

/-- Dropping empty parts does not change an empty-separator join. -/
theorem joinWith_nil_filter : ∀ parts : List (List Nat),
    joinWith [] (parts.filter (fun q => !q.isEmpty)) = joinWith [] parts := by
  intro parts
  induction parts with
  | nil => rfl
  | cons x xs ih =>
    cases hx : x.isEmpty
    · rw [List.filter_cons_of_pos (by rw [hx]; rfl), joinWith_nil_cons,
        joinWith_nil_cons, ih]
    · have hxe : x = [] := by
        cases x
        · rfl
        · simp at hx
      rw [List.filter_cons_of_neg (by rw [hx]; simp), joinWith_nil_cons, ih, hxe,
        List.nil_append]

/-- An `attempt` that returns true has replaced `current` by the attempted
value: under cache soundness, a true verdict cannot have come from the cache
(the value is a strict shrink of `current`, so its fingerprint cannot be
cached `true`), so the external predicate accepted it and the strict-shrink
branch of the cached predicate fired. -/
theorem attempt_true_current (p : List Nat → Bool) (fp : List Nat → Nat)
    (value : List Nat) (s : RState)
    (hs : CacheSound fp s) (h : (Reducer.attempt p fp value s).1 = true) :
    (Reducer.attempt p fp value s).2.current = value := by
  by_cases hlt : sortKeyLtB value s.current = true
  · have ha : Reducer.attempt p fp value s = Reducer.predicate p fp value s := by
      simp only [Reducer.attempt]
      rw [if_pos hlt]
    rw [ha] at h ⊢
    cases hlk : s.cache.lookup (fp value) with
    | some v =>
      rw [predicate_hit p fp value s v hlk] at h ⊢
      have hv : v = true := h
      rw [hv] at hlk
      have hfalse := hs value hlk
      rw [hfalse] at hlt
      exact absurd hlt (by simp)
    | none =>
      have hp : p value = true := by
        by_contra hp
        have hp2 : p value = false := by
          cases hpv : p value
          · rfl
          · exact absurd hpv hp
        have hred : Reducer.predicate p fp value s =
            (false, ⟨s.current, (fp value, false) :: s.cache⟩) := by
          simp [Reducer.predicate, hlk, hp2]
        rw [hred] at h
        simp at h
      have hred : Reducer.predicate p fp value s =
          (true, ⟨value, (fp value, true) :: s.cache⟩) := by
        simp [Reducer.predicate, hlk, hp, hlt]
      rw [hred]
  · have ha : Reducer.attempt p fp value s = (false, s) := by
      simp only [Reducer.attempt]
      rw [if_neg hlt]
    rw [ha] at h
    simp at h

/-- An `attempt` on a value that is not a strict shrink of `current` returns
false without touching the state (the short-circuited `and`). -/
theorem attempt_not_lt (p : List Nat → Bool) (fp : List Nat → Nat)
    (x : List Nat) (t : RState) (hx : sortKeyLtB x t.current = false) :
    Reducer.attempt p fp x t = (false, t) := by
  simp only [Reducer.attempt]
  rw [if_neg]
  rw [hx]
  simp

/-- `Reducer.reduce_by_delimiter` (`reducer.py`, lines 320-341) for a
single-byte delimiter `c` (the Python wrapper `to_bs` guarantees the
delimiter argument is one byte).  The result is `none` exactly when the
Python code would raise: the re-split `self.current.split(delimiter)` in the
branch where the second `attempt` succeeded raises `ValueError` when
`delimiter` has become the empty byte string.  `fuel` bounds the
`linear_reduce` sweep; the final result is `prev is not self.current`
(modelled as inequality: every reassignment of `current` is a strict shrink,
so reassignment and inequality coincide). -/
def Reducer.reduce_by_delimiter (p : List Nat → Bool) (fp : List Nat → Nat)
    (fuel : Nat) (c : Nat) (s : RState) : Option (Bool × RState) :=
  let prev := s.current
  let parts := s.current.splitOn c
  let a1 := Reducer.attempt p fp (joinWith [] parts) s
  let d1 : List Nat := if a1.1 then [] else [c]
  let a2 := Reducer.attempt p fp
    (joinWith d1 (parts.filter (fun q => !q.isEmpty))) a1.2
  let step : Option (List (List Nat) × RState) :=
    if a2.1 then
      match d1 with
      | [] => none
      | e :: _ => some (a2.2.current.splitOn e, a2.2)
    else some (parts, a2.2)
  match step with
  | none => none
  | some (parts2, s2) =>
    let lr := linear_reduce
      (fun ls t => Reducer.predicate p fp (joinWith d1 ls.reverse) t)
      fuel parts2.reverse 0 s2
    some (decide (prev ≠ lr.2.current), lr.2)

/-- C9: `reduce_by_delimiter` never reaches the empty-separator re-split (it
never returns `none`): the delimiter becomes empty only when the
no-delimiter join was just accepted as `current`, and then the second
`attempt`'s candidate — the non-empty parts joined with the empty delimiter —
equals `current` itself, so `attempt` rejects it as a non-strict shrink
before consulting the predicate, and the guarded re-split is not executed. -/
theorem reduce_by_delimiter_no_error (p : List Nat → Bool) (fp : List Nat → Nat)
    (fuel c : Nat) (s : RState) (hs : CacheSound fp s) :
    Reducer.reduce_by_delimiter p fp fuel c s ≠ none := by
  simp only [Reducer.reduce_by_delimiter]
  by_cases ha1 : (Reducer.attempt p fp (joinWith [] (s.current.splitOn c)) s).1 = true
  · have hcur : (Reducer.attempt p fp (joinWith [] (s.current.splitOn c)) s).2.current =
        joinWith [] (s.current.splitOn c) :=
      attempt_true_current p fp _ s hs ha1
    have ha2 : Reducer.attempt p fp
        (joinWith [] ((s.current.splitOn c).filter (fun q => !q.isEmpty)))
        (Reducer.attempt p fp (joinWith [] (s.current.splitOn c)) s).2 =
        (false, (Reducer.attempt p fp (joinWith [] (s.current.splitOn c)) s).2) :=
      attempt_not_lt p fp _ _ (by rw [joinWith_nil_filter, hcur, sortKeyLtB_irrefl])
    simp only [ha1, if_pos, if_true, ha2]
    simp
  · have hneg : (Reducer.attempt p fp (joinWith [] (s.current.splitOn c)) s).1 = false := by
      cases hv : (Reducer.attempt p fp (joinWith [] (s.current.splitOn c)) s).1
      · rfl
      · exact absurd hv ha1
    simp only [hneg]
    simp only [Bool.false_eq_true, if_false]
    by_cases ha2 : (Reducer.attempt p fp
        (joinWith [c] ((s.current.splitOn c).filter (fun q => !q.isEmpty)))
        (Reducer.attempt p fp (joinWith [] (s.current.splitOn c)) s).2).1 = true
    · simp [ha2]
    · simp [ha2]

/-- Witness for C9 at a concrete state with an empty (hence trivially sound)
cache. -/
theorem reduce_by_delimiter_no_error_witness :
    Reducer.reduce_by_delimiter (fun _ => true) (fun v => v.length) 5 0
      ⟨[0, 1], []⟩ ≠ none :=
  reduce_by_delimiter_no_error (fun _ => true) (fun v => v.length) 5 0
    ⟨[0, 1], []⟩ (by intro v hv; simp at hv)

end Anyreduce
